import Mathlib

/-!
# Verification of the yt-dlp dependency-set resolver

Shallow embedding of `devscripts/install_deps.py` (the `main` routine and
its inner `yield_deps` generator) and proofs about it.

Modelling conventions:
* Python strings are Lean `String`s.
* The manifest field `optional-dependencies` (a TOML table) is an association list
  `List (String × List String)` preserving declaration order (Python dicts
  iterate in insertion order); keys are unique by the manifest invariant.
* The Python regex class `[\w-]` is modelled over ASCII: alphanumeric,
  underscore or hyphen (`isWordOrHyphen`).  The manifest name interpolated
  into `recursive_pattern` is assumed to contain no regex metacharacters,
  as in the real manifests (`yt-dlp`).
* Fallible steps (the lookup `optional_groups["default"]`, which raises
  `KeyError` when the key is absent, and `re.match` of the leading-run pattern followed by `.group(0)`,
  which raises `AttributeError` when the match fails) return `Option`;
  `none` models the uncaught Python exception.
-/

namespace InstallDeps

/-- A dependency specifier: an opaque string token. -/
abbrev Specifier := String

/-- The manifest fields the resolver reads: `project.name`,
`project.dependencies` and `project.optional-dependencies`
(an insertion-ordered table). -/
structure Manifest where
  name : String
  dependencies : List Specifier
  optionalDependencies : List (String × List Specifier)
deriving DecidableEq, Repr

/-- The selection request assembled from the CLI flags.
`includes` models `args.include` (`-i`, repeatable), `excludes` models
`args.exclude` (`-e`, repeatable); `all` and `onlyOptional` model
`--all` and `--only-optional`. -/
structure Request where
  excludes : List String
  includes : List String
  all : Bool
  onlyOptional : Bool
deriving DecidableEq, Repr

/-- The Python character class `[\w-]`, restricted to ASCII:
word characters (letters, digits, underscore) and the hyphen. -/
def isWordOrHyphen (c : Char) : Bool :=
  c.isAlphanum || c == '_' || c == '-'

/-- The character-list core of the self-reference full match: the token
must be the manifest name, then `[`, then a nonempty run of word
characters or hyphens (the captured group name), then `]`, and nothing
after it.  Returns the characters of the captured group name. -/
def selfRefBody (nm : List Char) (d : List Char) : Option (List Char) :=
  if d.take nm.length = nm then
    match d.drop nm.length with
    | '[' :: rest =>
      let body := rest.dropLast
      if rest.getLast? = some ']' ∧ body ≠ [] ∧ body.all isWordOrHyphen then
        some body
      else none
    | _ => none
  else none

/-- Models `recursive_pattern.fullmatch(dep)`, where `recursive_pattern`
is compiled from the manifest name followed by a bracketed `[\w-]+`
group-name capture.  Returns the captured group name on a full match.  (The `[\w-]+` class
contains neither bracket, so the bracketed segment is exactly the last
one; strings are handled as their character lists.) -/
def parseSelfRef (name : String) (dep : String) : Option String :=
  (selfRefBody name.data dep.data).map String.mk

/-- Models `optional_groups.get(key)` (and the subscript lookup) on the
insertion-ordered groups table. -/
def lookupGroup (groups : List (String × List Specifier)) (key : String) :
    Option (List Specifier) :=
  (groups.find? (fun p => p.1 == key)).map Prod.snd

/-- The inner generator `yield_deps(group)`: each specifier that fully
matches the self-reference pattern is replaced by the raw sequence of
the referenced group (`optional_groups.get(..., [])`, so an unknown reference
contributes nothing); every other specifier is yielded unchanged.
No recursion occurs: the substituted sequence is taken verbatim. -/
def yield_deps (name : String) (groups : List (String × List Specifier))
    (group : List Specifier) : List Specifier :=
  group.flatMap fun dep =>
    match parseSelfRef name dep with
    | some g => (lookupGroup groups g).getD []
    | none => [dep]

/-- Tag recording which phase appended a specifier to `targets`:
the base `project.dependencies` list, or a named optional group
(the group being processed when the element was appended). -/
inductive Origin where
  | base : Origin
  | group : String → Origin
deriving DecidableEq, Repr

/-- Phase 1 of the assembly in `main` (the `if not args.only_optional:`
block): append the manifest dependencies, then, unless "default" is in
`excludes`, append `yield_deps` of the "default" group.
The subscript lookup raises `KeyError` (here: `none`) when the manifest
has no `default` group. -/
def baseDefaultPhase (m : Manifest) (r : Request) :
    Option (List (Origin × Specifier)) :=
  if r.onlyOptional then
    some []
  else
    let baseTagged := m.dependencies.map fun d => (Origin.base, d)
    if "default" ∈ r.excludes then
      some baseTagged
    else
      match lookupGroup m.optionalDependencies "default" with
      | none => none
      | some g =>
        some (baseTagged ++
          (yield_deps m.name m.optionalDependencies g).map
            fun d => (Origin.group "default", d))

/-- The contribution of one `--include` name: the expansion of the named
group when it exists (tagged with that group), nothing otherwise
(`filter(None, map(optional_groups.get, args.include or []))`). -/
def includeBlock (m : Manifest) (n : String) : List (Origin × Specifier) :=
  match lookupGroup m.optionalDependencies n with
  | some g => (yield_deps m.name m.optionalDependencies g).map
      fun d => (Origin.group n, d)
  | none => []

/-- Phase 2 of the assembly in `main`: with `--all`, every group other than
`default` and not named in `excludes`, in declaration order; otherwise
each `--include` name in the order given, unknown names silently
skipped. -/
def groupPhase (m : Manifest) (r : Request) : List (Origin × Specifier) :=
  if r.all then
    (m.optionalDependencies.filter
        (fun p => p.1 ≠ "default" ∧ p.1 ∉ r.excludes)).flatMap
      fun p => (yield_deps m.name m.optionalDependencies p.2).map
        fun d => (Origin.group p.1, d)
  else
    r.includes.flatMap fun n => includeBlock m n

/-- The whole assembly of `targets`, each element tagged with the phase
that appended it. -/
def assembleTagged (m : Manifest) (r : Request) :
    Option (List (Origin × Specifier)) :=
  (baseDefaultPhase m r).map (· ++ groupPhase m r)

/-- Models the expression `re.match` of `[\w-]+` against `t`, then
`.group(0).lower()`: the longest leading run of
word characters and hyphens, lower-cased; `none` (the `AttributeError`)
when the run is empty. -/
def baseNameLower (t : String) : Option String :=
  let run := t.data.takeWhile isWordOrHyphen
  if run.isEmpty then none else some (String.mk (run.map Char.toLower))

/-- The exclusion-and-deduplication loop of `main`, carrying the `seen`
set and returning the updated `seen` together with `unique_targets`:
a specifier is kept iff its lower-cased base name is not in `excludes`
and the exact string was not already kept.  The base name is computed
before the test, so a specifier with no leading word character or hyphen
fails the whole phase (`none`) even if it would have been dropped. -/
def dedupAux (excludes : List String) (seen : List String) :
    List Specifier → Option (List String × List Specifier)
  | [] => some (seen, [])
  | t :: rest =>
    match baseNameLower t with
    | none => none
    | some b =>
      if b ∉ excludes ∧ t ∉ seen then
        (dedupAux excludes (t :: seen) rest).map fun p => (p.1, t :: p.2)
      else
        dedupAux excludes seen rest

/-- The exclusion-and-deduplication phase: run the loop with an empty
`seen` set and return `unique_targets`. -/
def dedupExclude (excludes : List String) (ts : List Specifier) :
    Option (List Specifier) :=
  (dedupAux excludes [] ts).map Prod.snd

/-- The full resolution: assemble `targets`, then exclude and
de-duplicate.  `none` models an uncaught exception. -/
def resolve (m : Manifest) (r : Request) : Option (List Specifier) :=
  (assembleTagged m r).bind fun l => dedupExclude r.excludes (l.map Prod.snd)

/-- Holds iff `main` prints the warning that `--only-optional` has no
effect: the code reaches the warning only in the `else` branch of
`if args.all:`, and then tests `args.only_optional and not args.include`. -/
def advisory (r : Request) : Bool :=
  !r.all && r.onlyOptional && r.includes.isEmpty

/-! ## Concrete fixtures -/

/-- The Scenario A manifest: base and four optional groups, `default`
declared first. -/
def scenarioAManifest : Manifest :=
  { name := "yt-dlp"
    dependencies := ["dep1", "dep2"]
    optionalDependencies :=
      [("default", ["opt1", "opt2"]), ("test", ["test1", "test2"]),
       ("dev", ["dev1", "dev2"]), ("extra", ["extra1", "extra2"])] }

/-- The Scenario A request: `--all`, nothing else. -/
def scenarioARequest : Request :=
  { excludes := [], includes := [], all := true, onlyOptional := false }

/-- A groups table with self-references in both directions: the `test`
group references `dev` and the `dev` group references `test`. -/
def mutualRefGroups : List (String × List Specifier) :=
  [("test", ["test1", "yt-dlp[dev]"]), ("dev", ["dev1", "yt-dlp[test]"])]

/-- A manifest whose groups table has no `default` key. -/
def noDefaultManifest : Manifest :=
  { name := "proj"
    dependencies := ["dep1"]
    optionalDependencies := [("test", ["t1"])] }

/-- A request with no flags and no selections at all. -/
def plainRequest : Request :=
  { excludes := [], includes := [], all := false, onlyOptional := false }

/-- A manifest used to show that group-level exclusion is not applied on
the include path. -/
def soleGroupManifest : Manifest :=
  { name := "yt-dlp"
    dependencies := []
    optionalDependencies := [("default", []), ("test", ["test1"])] }

/-- A request that both includes and excludes the group `test`. -/
def includeExcludeRequest : Request :=
  { excludes := ["test"], includes := ["test"], all := false, onlyOptional := true }

/-! ## C1: one-level group expansion -/

/-- C1: when a specifier fully matches the self-reference pattern, the
expander splices in the referenced group raw sequence verbatim — the
rest of the input is expanded around it unchanged, and nothing inside
the spliced sequence (in particular an inner self-reference) is touched:
an inner self-reference stays a literal token of the output. -/
theorem yield_deps_one_level (name : String)
    (groups : List (String × List Specifier)) (pre post : List Specifier)
    (dep : Specifier) (g : String) (inner : List Specifier)
    (h1 : parseSelfRef name dep = some g)
    (h2 : lookupGroup groups g = some inner) :
    yield_deps name groups (pre ++ dep :: post) =
      yield_deps name groups pre ++ (inner ++ yield_deps name groups post) := by
  simp only [yield_deps, List.flatMap_append, List.flatMap_cons, h1, h2,
    Option.getD_some]

/-- Witness for C1 at a concrete manifest: expanding the self-reference
to the mutually-referencing `test` group yields its raw contents, with
the inner reference to `dev` emitted literally. -/
theorem yield_deps_one_level_witness :
    yield_deps "yt-dlp" mutualRefGroups ([] ++ "yt-dlp[test]" :: []) =
      yield_deps "yt-dlp" mutualRefGroups [] ++
        (["test1", "yt-dlp[dev]"] ++ yield_deps "yt-dlp" mutualRefGroups []) :=
  yield_deps_one_level "yt-dlp" mutualRefGroups [] [] "yt-dlp[test]" "test"
    ["test1", "yt-dlp[dev]"] (by decide) (by decide)

/-! ## C2: Scenario A -/

/-- C2: on the Scenario A manifest with `all = true` and empty include
and exclude, resolution yields exactly the ten specifiers in order:
base first, then the default group, then the remaining groups in
declared order skipping `default`. -/
theorem scenarioA_resolution :
    resolve scenarioAManifest scenarioARequest =
      some ["dep1", "dep2", "opt1", "opt2", "test1", "test2",
            "dev1", "dev2", "extra1", "extra2"] := by
  decide

/-! ## C7: determinism -/

/-- C7: the resolver is a pure function of the manifest and the request;
two runs on identical inputs produce identical results, with no hidden
state between calls. -/
theorem resolve_deterministic (m : Manifest) (r : Request)
    (res₁ res₂ : Option (List Specifier))
    (h₁ : resolve m r = res₁) (h₂ : resolve m r = res₂) : res₁ = res₂ := by
  rw [← h₁, ← h₂]

/-- Witness for C7: two evaluations on the Scenario A input agree. -/
theorem resolve_deterministic_witness :
    (some ["dep1", "dep2", "opt1", "opt2", "test1", "test2",
           "dev1", "dev2", "extra1", "extra2"] : Option (List Specifier)) =
      some ["dep1", "dep2", "opt1", "opt2", "test1", "test2",
            "dev1", "dev2", "extra1", "extra2"] :=
  resolve_deterministic scenarioAManifest scenarioARequest _ _
    (by decide) (by decide)

/-! ## C8: the vacuous-request advisory -/

/-- C8: the advisory is emitted exactly when `onlyOptional` is true,
`all` is false and the include sequence is empty; it is only a warning:
resolution proceeds and returns the empty resolved set in that case. -/
theorem advisory_exact (m : Manifest) (r : Request) :
    (advisory r = true ↔
      (r.onlyOptional = true ∧ r.all = false ∧ r.includes = [])) ∧
    (advisory r = true → resolve m r = some []) := by
  constructor
  · simp only [advisory, Bool.and_eq_true, Bool.not_eq_true',
      List.isEmpty_iff]
    tauto
  · intro h
    simp only [advisory, Bool.and_eq_true, Bool.not_eq_true',
      List.isEmpty_iff] at h
    obtain ⟨⟨ha, ho⟩, hi⟩ := h
    simp [resolve, assembleTagged, baseDefaultPhase, groupPhase,
      dedupExclude, dedupAux, ha, ho, hi]

/-- Witness for C8: a vacuous `--only-optional` request on the Scenario
A manifest still resolves, to the empty set. -/
theorem advisory_exact_witness :
    resolve scenarioAManifest
      { excludes := [], includes := [], all := false, onlyOptional := true } =
      some [] :=
  (advisory_exact scenarioAManifest
    { excludes := [], includes := [], all := false, onlyOptional := true }).2
    (by decide)

/-! ## C5: manifests without a default group -/

/-- Counterexample for C5: the manifest has no `default` group and the
request has `onlyOptional = false` and empty exclude, yet resolution
does not succeed — the lookup of the `default` group fails (the
`KeyError` of the subscript access), modelled as `none`. -/
theorem missing_default_resolution_fails :
    lookupGroup noDefaultManifest.optionalDependencies "default" = none ∧
    plainRequest.onlyOptional = false ∧
    resolve noDefaultManifest plainRequest = none := by
  decide

/-- C5 as amended: on a manifest without a `default` group and a request
with `onlyOptional = false`, assembly succeeds (base appended, the
absent default group contributing nothing) only when `"default"` is in
the exclude set; otherwise the default-group lookup fails and resolution
errors. -/
theorem missing_default_fails_unless_excluded (m : Manifest) (r : Request)
    (ho : r.onlyOptional = false)
    (hn : lookupGroup m.optionalDependencies "default" = none) :
    ("default" ∈ r.excludes →
      assembleTagged m r =
        some ((m.dependencies.map fun d => (Origin.base, d)) ++ groupPhase m r)) ∧
    ("default" ∉ r.excludes → resolve m r = none) := by
  constructor
  · intro hd
    simp [assembleTagged, baseDefaultPhase, ho, hd]
  · intro hd
    simp [resolve, assembleTagged, baseDefaultPhase, ho, hd, hn]

/-- Witness for the amended C5: on the concrete default-less manifest,
excluding `default` lets assembly succeed with just the base. -/
theorem missing_default_fails_unless_excluded_witness :
    assembleTagged noDefaultManifest
      { excludes := ["default"], includes := [], all := false, onlyOptional := false } =
      some ((noDefaultManifest.dependencies.map fun d => (Origin.base, d)) ++
        groupPhase noDefaultManifest
          { excludes := ["default"], includes := [], all := false, onlyOptional := false }) :=
  (missing_default_fails_unless_excluded noDefaultManifest
    { excludes := ["default"], includes := [], all := false, onlyOptional := false }
    (by decide) (by decide)).1 (by decide)

/-! ## C6: totality of the exclusion-and-deduplication phase -/

/-- Counterexample for C6: a specifier that does not begin with a word
character or hyphen makes the exclusion-and-deduplication phase fail
(the `AttributeError` on the failed `re.match`), modelled as `none` —
the phase does not return a resolved set on every input. -/
theorem dedup_fails_on_nonword_head :
    dedupExclude [] ["#bad"] = none := by
  decide

/-- Helper for the amended C6: the loop succeeds from any `seen` state
when every specifier has a nonempty leading run of word characters or
hyphens. -/
theorem dedupAux_total (excludes : List String) :
    ∀ ts : List Specifier, (∀ t ∈ ts, (baseNameLower t).isSome = true) →
      ∀ seen, ∃ p, dedupAux excludes seen ts = some p := by
  intro ts
  induction ts with
  | nil => exact fun _ seen => ⟨(seen, []), rfl⟩
  | cons t rest ih =>
    intro h seen
    obtain ⟨b, hb⟩ :=
      Option.isSome_iff_exists.mp (h t (List.mem_cons_self t rest))
    by_cases hc : b ∉ excludes ∧ t ∉ seen
    · obtain ⟨p, hp⟩ := ih (fun u hu => h u (List.mem_cons_of_mem _ hu)) (t :: seen)
      exact ⟨(p.1, t :: p.2), by simp [dedupAux, hb, hc, hp]⟩
    · obtain ⟨p, hp⟩ := ih (fun u hu => h u (List.mem_cons_of_mem _ hu)) seen
      exact ⟨p, by simp [dedupAux, hb, hc, hp]⟩

/-- C6 as amended: the exclusion-and-deduplication phase completes and
returns a resolved set for every exclude set and every assembled
sequence whose specifiers each begin with a word character or hyphen
(equivalently, whose base-name computation succeeds). -/
theorem dedup_total_on_wordlike (excludes : List String) (ts : List Specifier)
    (h : ∀ t ∈ ts, (baseNameLower t).isSome = true) :
    ∃ res, dedupExclude excludes ts = some res := by
  obtain ⟨p, hp⟩ := dedupAux_total excludes ts h []
  exact ⟨p.2, by simp [dedupExclude, hp]⟩

/-- Witness for the amended C6 on a concrete mixed sequence with a
nonempty exclude set. -/
theorem dedup_total_on_wordlike_witness :
    (∀ t ∈ (["dep1", "yt-dlp[dev]", "dep1"] : List Specifier),
        (baseNameLower t).isSome = true) ∧
    ∃ res, dedupExclude ["x"] ["dep1", "yt-dlp[dev]", "dep1"] = some res :=
  ⟨by decide, dedup_total_on_wordlike ["x"] ["dep1", "yt-dlp[dev]", "dep1"] (by decide)⟩

/-! ## C10: uppercase exclude tokens never match a base name -/

/-- ASCII uppercase test, expressed over the code point. -/
def isUpperAscii (c : Char) : Bool :=
  decide (65 ≤ c.toNat) && decide (c.toNat ≤ 90)

/-- Lower-casing never produces an ASCII uppercase letter. -/
theorem isUpperAscii_toLower (c : Char) : isUpperAscii (Char.toLower c) = false := by
  show isUpperAscii
      (if c.toNat ≥ 65 ∧ c.toNat ≤ 90 then Char.ofNat (c.toNat + 32) else c) = false
  split
  next h =>
    obtain ⟨h1, h2⟩ := h
    have h1' : 65 ≤ c.toNat := h1
    generalize hn : Char.toNat c = n at h1' h2 ⊢
    interval_cases n <;> decide
  next h =>
    have h' : ¬(65 ≤ c.toNat ∧ c.toNat ≤ 90) := h
    simp only [isUpperAscii, Bool.and_eq_false_iff, decide_eq_false_iff_not]
    omega

/-- Every character of a computed base name is non-uppercase. -/
theorem baseNameLower_no_upper (t b : String) (hb : baseNameLower t = some b) :
    ∀ c ∈ b.data, isUpperAscii c = false := by
  unfold baseNameLower at hb
  by_cases he : (t.data.takeWhile isWordOrHyphen).isEmpty
  · simp [he] at hb
  · simp only [he, if_neg, Bool.false_eq_true, not_false_eq_true,
      Option.some.injEq] at hb
    intro c hc
    rw [← hb] at hc
    have hc' : c ∈ (t.data.takeWhile isWordOrHyphen).map Char.toLower := hc
    obtain ⟨c', _, hcc⟩ := List.mem_map.mp hc'
    rw [← hcc]
    exact isUpperAscii_toLower c'

/-- C10: an exclude token containing an ASCII uppercase letter never
matches any lower-cased base name, so the final exclusion-by-base-name
rule behaves as if the token were absent, wherever it sits in the
exclude set. -/
theorem uppercase_exclude_token_inert (e : String) (pre post : List String)
    (he : e.data.any isUpperAscii = true) (ts : List Specifier) :
    dedupExclude (pre ++ e :: post) ts = dedupExclude (pre ++ post) ts := by
  suffices haux : ∀ seen, dedupAux (pre ++ e :: post) seen ts =
      dedupAux (pre ++ post) seen ts by
    simp [dedupExclude, haux]
  induction ts with
  | nil => intro seen; rfl
  | cons t rest ih =>
    intro seen
    cases hb : baseNameLower t with
    | none => simp [dedupAux, hb]
    | some b =>
      have hbe : b ≠ e := by
        intro hcontra
        obtain ⟨c, hc, hcu⟩ := List.any_eq_true.mp he
        have := baseNameLower_no_upper t b hb c (by rw [hcontra]; exact hc)
        rw [this] at hcu
        exact Bool.false_ne_true hcu
      have hmem : (b ∈ pre ++ e :: post) ↔ (b ∈ pre ++ post) := by
        simp [List.mem_append, hbe]
      simp only [dedupAux, hb]
      by_cases hcond : b ∉ (pre ++ post) ∧ t ∉ seen
      · have hcond' : b ∉ (pre ++ e :: post) ∧ t ∉ seen :=
          ⟨fun hx => hcond.1 (hmem.mp hx), hcond.2⟩
        rw [if_pos hcond', if_pos hcond, ih]
      · have hcond' : ¬(b ∉ (pre ++ e :: post) ∧ t ∉ seen) := fun hx =>
          hcond ⟨fun hy => hx.1 (hmem.mpr hy), hx.2⟩
        rw [if_neg hcond', if_neg hcond, ih]

/-- Witness for C10: the token `Test` (uppercase `T`) in the exclude set
drops nothing that the empty exclude set would keep. -/
theorem uppercase_exclude_token_inert_witness :
    ("Test".data.any isUpperAscii = true) ∧
    dedupExclude ([] ++ "Test" :: []) ["test1"] = dedupExclude ([] ++ []) ["test1"] :=
  ⟨by decide, uppercase_exclude_token_inert "Test" [] [] (by decide) ["test1"]⟩

/-! ## Structural lemmas about the exclusion-and-deduplication loop -/

/-- Processing a concatenation: run the loop on the first part, then on
the second from the resulting `seen` state, concatenating outputs. -/
theorem dedupAux_append (excludes : List String) :
    ∀ (xs ys : List Specifier) (seen : List String),
      dedupAux excludes seen (xs ++ ys) =
        (dedupAux excludes seen xs).bind fun q =>
          (dedupAux excludes q.1 ys).map fun w => (w.1, q.2 ++ w.2) := by
  intro xs
  induction xs with
  | nil =>
    intro ys seen
    cases h : dedupAux excludes seen ys with
    | none => simp [dedupAux, h]
    | some w => simp [dedupAux, h]
  | cons t xs ih =>
    intro ys seen
    cases hb : baseNameLower t with
    | none => simp [dedupAux, hb]
    | some b =>
      by_cases hc : b ∉ excludes ∧ t ∉ seen
      · simp only [List.cons_append, dedupAux, hb, if_pos hc, List.append_eq]
        rw [ih ys (t :: seen)]
        cases h1 : dedupAux excludes (t :: seen) xs with
        | none => simp
        | some q =>
          simp only [Option.map_some', Option.some_bind, Option.map_map]
          cases dedupAux excludes q.1 ys <;> rfl
      · simp only [List.cons_append, dedupAux, hb, if_neg hc]
        exact ih ys seen

/-- A block whose every element is base-excluded or already seen leaves
the loop state unchanged and contributes nothing. -/
theorem dedupAux_redundant (excludes : List String) :
    ∀ (ts : List Specifier) (seen : List String),
      (∀ t ∈ ts, ∃ b, baseNameLower t = some b ∧ (b ∈ excludes ∨ t ∈ seen)) →
      dedupAux excludes seen ts = some (seen, []) := by
  intro ts
  induction ts with
  | nil => intro seen _; rfl
  | cons t rest ih =>
    intro seen h
    obtain ⟨b, hb, hor⟩ := h t (List.mem_cons_self t rest)
    have hcond : ¬(b ∉ excludes ∧ t ∉ seen) := by tauto
    simp only [dedupAux, hb, if_neg hcond]
    exact ih seen fun u hu => h u (List.mem_cons_of_mem _ hu)

/-- After a successful run, the `seen` set only grew, and every
processed specifier is base-excluded or in the final `seen` set. -/
theorem dedupAux_post (excludes : List String) :
    ∀ (ts : List Specifier) (seen : List String) (p),
      dedupAux excludes seen ts = some p →
      (∀ x ∈ seen, x ∈ p.1) ∧
      (∀ t ∈ ts, ∃ b, baseNameLower t = some b ∧ (b ∈ excludes ∨ t ∈ p.1)) := by
  intro ts
  induction ts with
  | nil =>
    intro seen p hp
    cases hp
    exact ⟨fun x hx => hx, fun t ht => absurd ht (List.not_mem_nil t)⟩
  | cons t rest ih =>
    intro seen p hp
    cases hb : baseNameLower t with
    | none => simp [dedupAux, hb] at hp
    | some b =>
      by_cases hc : b ∉ excludes ∧ t ∉ seen
      · simp only [dedupAux, hb, if_pos hc, Option.map_eq_some'] at hp
        obtain ⟨q, hq, rfl⟩ := hp
        obtain ⟨hsub, hall⟩ := ih (t :: seen) q hq
        refine ⟨fun x hx => hsub x (List.mem_cons_of_mem _ hx), ?_⟩
        intro u hu
        rcases List.mem_cons.mp hu with rfl | hu'
        · exact ⟨b, hb, Or.inr (hsub u (List.mem_cons_self u seen))⟩
        · exact hall u hu'
      · simp only [dedupAux, hb, if_neg hc] at hp
        obtain ⟨hsub, hall⟩ := ih seen p hp
        refine ⟨hsub, ?_⟩
        intro u hu
        rcases List.mem_cons.mp hu with rfl | hu'
        · refine ⟨b, hb, ?_⟩
          rcases not_and_or.mp hc with hx | hx
          · exact Or.inl (not_not.mp hx)
          · exact Or.inr (hsub u (not_not.mp hx))
        · exact hall u hu'

/-- Membership in the loop output: a specifier is kept iff it occurs in
the input, was not already seen, and its base name is not excluded. -/
theorem mem_dedupAux (excludes : List String) :
    ∀ (ts : List Specifier) (seen : List String) (p),
      dedupAux excludes seen ts = some p →
      ∀ s, s ∈ p.2 ↔
        (s ∈ ts ∧ s ∉ seen ∧ ∃ b, baseNameLower s = some b ∧ b ∉ excludes) := by
  intro ts
  induction ts with
  | nil =>
    intro seen p hp s
    cases hp
    simp
  | cons t rest ih =>
    intro seen p hp s
    cases hb : baseNameLower t with
    | none => simp [dedupAux, hb] at hp
    | some b =>
      by_cases hc : b ∉ excludes ∧ t ∉ seen
      · simp only [dedupAux, hb, if_pos hc, Option.map_eq_some'] at hp
        obtain ⟨q, hq, rfl⟩ := hp
        have iq := ih (t :: seen) q hq s
        constructor
        · intro hs
          rcases List.mem_cons.mp hs with rfl | hs'
          · exact ⟨List.mem_cons_self s rest, hc.2, b, hb, hc.1⟩
          · obtain ⟨h1, h2, h3⟩ := iq.mp hs'
            exact ⟨List.mem_cons_of_mem _ h1,
              fun hy => h2 (List.mem_cons_of_mem _ hy), h3⟩
        · rintro ⟨h1, h2, h3⟩
          by_cases hst : s = t
          · subst hst
            exact List.mem_cons_self s q.2
          · rcases List.mem_cons.mp h1 with rfl | h1'
            · exact absurd rfl hst
            · refine List.mem_cons_of_mem _ (iq.mpr ⟨h1', ?_, h3⟩)
              intro hy
              rcases List.mem_cons.mp hy with rfl | hy'
              · exact hst rfl
              · exact h2 hy'
      · simp only [dedupAux, hb, if_neg hc] at hp
        have iq := ih seen p hp s
        rw [iq]
        by_cases hst : s = t
        · subst hst
          constructor
          · rintro ⟨h1, h2, b', hb', hbe⟩
            exact ⟨List.mem_cons_of_mem _ h1, h2, b', hb', hbe⟩
          · rintro ⟨h1, h2, b', hb', hbe⟩
            rw [hb] at hb'
            cases hb'
            rcases not_and_or.mp hc with hx | hx
            · exact absurd (not_not.mp hx) hbe
            · exact absurd (not_not.mp hx) h2
        · constructor
          · rintro ⟨h1, h2, h3⟩
            exact ⟨List.mem_cons_of_mem _ h1, h2, h3⟩
          · rintro ⟨h1, h2, h3⟩
            rcases List.mem_cons.mp h1 with rfl | h1'
            · exact absurd rfl hst
            · exact ⟨h1', h2, h3⟩

/-! ## C9: duplicate include names are harmless -/

/-- The base-and-default phase does not read the include sequence. -/
theorem baseDefaultPhase_includes_irrelevant (m : Manifest) (r : Request)
    (xs : List String) :
    baseDefaultPhase m { r with includes := xs } = baseDefaultPhase m r := rfl

/-- A middle block whose elements all already occur in the first part is
absorbed: the loop output is as if the block were not there. -/
theorem dedupExclude_absorb (excl : List String) (A Bs C : List Specifier)
    (hBA : ∀ t ∈ Bs, t ∈ A) :
    dedupExclude excl (A ++ (Bs ++ C)) = dedupExclude excl (A ++ C) := by
  unfold dedupExclude
  rw [dedupAux_append excl A (Bs ++ C) [], dedupAux_append excl A C []]
  cases hA : dedupAux excl [] A with
  | none => rfl
  | some q =>
    simp only [Option.some_bind]
    rw [dedupAux_append excl Bs C q.1]
    have hpost := dedupAux_post excl A [] q hA
    have hred : dedupAux excl q.1 Bs = some (q.1, []) :=
      dedupAux_redundant excl Bs q.1 fun t ht => hpost.2 t (hBA t ht)
    rw [hred]
    simp only [Option.some_bind]
    cases dedupAux excl q.1 C <;> simp

/-- C9: repeating an include name that already occurred earlier in the
include sequence leaves the resolved set unchanged, element for element
and in order. -/
theorem include_duplicate_harmless (m : Manifest) (r : Request)
    (g : String) (pre post : List String) (hg : g ∈ pre) :
    resolve m { r with includes := pre ++ g :: post } =
      resolve m { r with includes := pre ++ post } := by
  by_cases hall : r.all = true
  · have hgp : ∀ xs : List String,
        groupPhase m { r with includes := xs } = groupPhase m r := by
      intro xs
      simp [groupPhase, hall]
    simp only [resolve, assembleTagged, baseDefaultPhase_includes_irrelevant, hgp]
  · have hall' : r.all = false := by
      revert hall
      cases r.all <;> simp
    have hgp1 : groupPhase m { r with includes := pre ++ g :: post } =
        pre.flatMap (includeBlock m) ++
          (includeBlock m g ++ post.flatMap (includeBlock m)) := by
      simp [groupPhase, hall', List.flatMap_append]
    have hgp2 : groupPhase m { r with includes := pre ++ post } =
        pre.flatMap (includeBlock m) ++ post.flatMap (includeBlock m) := by
      simp [groupPhase, hall', List.flatMap_append]
    simp only [resolve, assembleTagged, baseDefaultPhase_includes_irrelevant,
      hgp1, hgp2]
    cases hP : baseDefaultPhase m r with
    | none => rfl
    | some P =>
      simp only [Option.map_some', Option.some_bind]
      have habs := dedupExclude_absorb r.excludes
        ((P ++ pre.flatMap (includeBlock m)).map Prod.snd)
        ((includeBlock m g).map Prod.snd)
        ((post.flatMap (includeBlock m)).map Prod.snd)
        (by
          intro t ht
          obtain ⟨x, hx, rfl⟩ := List.mem_map.mp ht
          exact List.mem_map_of_mem Prod.snd
            (List.mem_append_right P (List.mem_flatMap_of_mem hg hx)))
      simp only [List.map_append, List.append_assoc] at habs ⊢
      exact habs

/-- Witness for C9: repeating `test` in the include sequence of a plain
request on the Scenario A manifest changes nothing. -/
theorem include_duplicate_harmless_witness :
    resolve scenarioAManifest
        { plainRequest with includes := ["test"] ++ "test" :: ["dev"] } =
      resolve scenarioAManifest
        { plainRequest with includes := ["test"] ++ ["dev"] } :=
  include_duplicate_harmless scenarioAManifest plainRequest "test" ["test"]
    ["dev"] (by decide)

/-! ## C3: exclusion soundness -/

/-- Every element contributed by an include name is tagged with that
name. -/
theorem includeBlock_fst (m : Manifest) (n : String) :
    ∀ x ∈ includeBlock m n, x.1 = Origin.group n := by
  unfold includeBlock
  cases lookupGroup m.optionalDependencies n with
  | none => intro x hx; cases hx
  | some g =>
    intro x hx
    obtain ⟨d, _, rfl⟩ := List.mem_map.mp hx
    rfl

/-- Adding a group name to the exclude set restricts the base-and-default
phase to the elements not tagged with that group (given the phase
succeeded on the original request). -/
theorem baseDefaultPhase_exclude_filter (m : Manifest) (r : Request) (G : String)
    (P : List (Origin × Specifier)) (hP : baseDefaultPhase m r = some P) :
    baseDefaultPhase m { r with excludes := G :: r.excludes } =
      some (P.filter fun p => decide (p.1 ≠ Origin.group G)) := by
  have hbase : ∀ ds : List Specifier,
      (ds.map fun d => ((Origin.base : Origin), d)).filter
          (fun p => decide (p.1 ≠ Origin.group G)) =
        ds.map fun d => ((Origin.base : Origin), d) := by
    intro ds
    refine List.filter_eq_self.mpr ?_
    intro x hx
    obtain ⟨d, _, rfl⟩ := List.mem_map.mp hx
    exact decide_eq_true (fun h => Origin.noConfusion h)
  by_cases ho : r.onlyOptional = true
  · have h1 : baseDefaultPhase m r = some [] := by simp [baseDefaultPhase, ho]
    have h2 : baseDefaultPhase m { r with excludes := G :: r.excludes } =
        some [] := by simp [baseDefaultPhase, ho]
    rw [hP] at h1
    obtain hPe := Option.some.inj h1
    subst hPe
    rw [h2]
    rfl
  · replace ho : r.onlyOptional = false := by
      revert ho; cases r.onlyOptional <;> simp
    by_cases hd : "default" ∈ r.excludes
    · have h1 : baseDefaultPhase m r =
          some (m.dependencies.map fun d => (Origin.base, d)) := by
        simp [baseDefaultPhase, ho, hd]
      have h2 : baseDefaultPhase m { r with excludes := G :: r.excludes } =
          some (m.dependencies.map fun d => (Origin.base, d)) := by
        simp [baseDefaultPhase, ho, hd]
      rw [hP] at h1
      obtain hPe := Option.some.inj h1
      subst hPe
      rw [h2, hbase]
    · cases hl : lookupGroup m.optionalDependencies "default" with
      | none =>
        have h1 : baseDefaultPhase m r = none := by
          simp [baseDefaultPhase, ho, hd, hl]
        rw [hP] at h1
        cases h1
      | some gdeps =>
        have h1 : baseDefaultPhase m r =
            some ((m.dependencies.map fun d => (Origin.base, d)) ++
              (yield_deps m.name m.optionalDependencies gdeps).map
                fun d => (Origin.group "default", d)) := by
          simp [baseDefaultPhase, ho, hd, hl]
        rw [hP] at h1
        obtain hPe := Option.some.inj h1
        subst hPe
        by_cases hG : G = "default"
        · subst hG
          have h2 : baseDefaultPhase m
              { r with excludes := "default" :: r.excludes } =
              some (m.dependencies.map fun d => (Origin.base, d)) := by
            simp [baseDefaultPhase, ho]
          have hnil : ((yield_deps m.name m.optionalDependencies gdeps).map
              (fun d => ((Origin.group "default" : Origin), d))).filter
                (fun p => decide (p.1 ≠ Origin.group "default")) = [] := by
            rw [List.filter_eq_nil_iff]
            intro x hx
            obtain ⟨d, _, rfl⟩ := List.mem_map.mp hx
            simp
          rw [h2, List.filter_append, hbase, hnil, List.append_nil]
        · have hmem : "default" ∉ G :: r.excludes := by
            intro hx
            rcases List.mem_cons.mp hx with h | h
            · exact hG h.symm
            · exact hd h
          have h2 : baseDefaultPhase m { r with excludes := G :: r.excludes } =
              some ((m.dependencies.map fun d => (Origin.base, d)) ++
                (yield_deps m.name m.optionalDependencies gdeps).map
                  fun d => (Origin.group "default", d)) := by
            simp [baseDefaultPhase, ho, hmem, hl]
          have hself : ((yield_deps m.name m.optionalDependencies gdeps).map
              (fun d => ((Origin.group "default" : Origin), d))).filter
                (fun p => decide (p.1 ≠ Origin.group G)) =
              (yield_deps m.name m.optionalDependencies gdeps).map
                fun d => ((Origin.group "default" : Origin), d) := by
            refine List.filter_eq_self.mpr ?_
            intro x hx
            obtain ⟨d, _, rfl⟩ := List.mem_map.mp hx
            exact decide_eq_true fun h => hG (Origin.group.inj h).symm
          rw [h2, List.filter_append, hbase, hself]

/-- The `--all` branch of the group phase under one more excluded name:
exactly the elements tagged with that name disappear. -/
theorem allPhase_exclude_filter (name : String)
    (groups full : List (String × List Specifier)) (excl : List String)
    (G : String) :
    (groups.filter (fun p => p.1 ≠ "default" ∧ p.1 ∉ G :: excl)).flatMap
        (fun p => (yield_deps name full p.2).map fun d => (Origin.group p.1, d)) =
      ((groups.filter (fun p => p.1 ≠ "default" ∧ p.1 ∉ excl)).flatMap
          (fun p => (yield_deps name full p.2).map
            fun d => (Origin.group p.1, d))).filter
        (fun p => decide (p.1 ≠ Origin.group G)) := by
  induction groups with
  | nil => rfl
  | cons hd tl ih =>
    by_cases h1 : hd.1 ≠ "default" ∧ hd.1 ∉ excl
    · by_cases h2 : hd.1 = G
      · have hL : ¬(hd.1 ≠ "default" ∧ hd.1 ∉ G :: excl) := fun hx =>
          hx.2 (h2 ▸ List.mem_cons_self G excl)
        have hnil : ((yield_deps name full hd.2).map
            (fun d => ((Origin.group hd.1 : Origin), d))).filter
              (fun p => decide (p.1 ≠ Origin.group G)) = [] := by
          rw [List.filter_eq_nil_iff]
          intro x hx
          obtain ⟨d, _, rfl⟩ := List.mem_map.mp hx
          simp [h2]
        rw [List.filter_cons_of_neg (by simpa using hL),
          List.filter_cons_of_pos (by simpa using h1), List.flatMap_cons,
          List.filter_append, hnil, List.nil_append]
        exact ih
      · have hKeep : hd.1 ≠ "default" ∧ hd.1 ∉ G :: excl :=
          ⟨h1.1, fun hx => (List.mem_cons.mp hx).elim (fun h => h2 h) h1.2⟩
        have hself : ((yield_deps name full hd.2).map
            (fun d => ((Origin.group hd.1 : Origin), d))).filter
              (fun p => decide (p.1 ≠ Origin.group G)) =
            (yield_deps name full hd.2).map
              fun d => ((Origin.group hd.1 : Origin), d) := by
          refine List.filter_eq_self.mpr ?_
          intro x hx
          obtain ⟨d, _, rfl⟩ := List.mem_map.mp hx
          exact decide_eq_true fun h => h2 (Origin.group.inj h)
        rw [List.filter_cons_of_pos (by simpa using hKeep),
          List.filter_cons_of_pos (by simpa using h1), List.flatMap_cons,
          List.flatMap_cons, List.filter_append, hself, ih]
    · have hL2 : ¬(hd.1 ≠ "default" ∧ hd.1 ∉ G :: excl) := fun hx =>
        h1 ⟨hx.1, fun hmem => hx.2 (List.mem_cons_of_mem _ hmem)⟩
      rw [List.filter_cons_of_neg (by simpa using hL2),
        List.filter_cons_of_neg (by simpa using h1)]
      exact ih

/-- Adding a group name absent from the include sequence to the exclude
set restricts the group phase to the elements not tagged with that
group. -/
theorem groupPhase_exclude_filter (m : Manifest) (r : Request) (G : String)
    (hG : G ∉ r.includes) :
    groupPhase m { r with excludes := G :: r.excludes } =
      (groupPhase m r).filter fun p => decide (p.1 ≠ Origin.group G) := by
  by_cases hall : r.all = true
  · rw [groupPhase, groupPhase, if_pos hall, if_pos hall]
    exact allPhase_exclude_filter m.name m.optionalDependencies
      m.optionalDependencies r.excludes G
  · replace hall : r.all = false := by
      revert hall; cases r.all <;> simp
    rw [groupPhase, groupPhase, if_neg (by simp [hall]), if_neg (by simp [hall])]
    refine Eq.symm (List.filter_eq_self.mpr ?_)
    intro x hx
    obtain ⟨n, hn, hxn⟩ := List.mem_flatMap.mp hx
    rw [includeBlock_fst m n x hxn]
    exact decide_eq_true fun h => hG ((Origin.group.inj h) ▸ hn)

/-- Adding a group name absent from the include sequence to the exclude
set filters exactly the elements tagged with that group out of the
assembly (given the assembly succeeded on the original request). -/
theorem assembleTagged_exclude_filter (m : Manifest) (r : Request) (G : String)
    (hG : G ∉ r.includes) (l : List (Origin × Specifier))
    (hl : assembleTagged m r = some l) :
    assembleTagged m { r with excludes := G :: r.excludes } =
      some (l.filter fun p => decide (p.1 ≠ Origin.group G)) := by
  unfold assembleTagged at hl ⊢
  cases hP : baseDefaultPhase m r with
  | none => rw [hP] at hl; cases hl
  | some P =>
    rw [hP] at hl
    simp only [Option.map_some', Option.some.injEq] at hl
    rw [baseDefaultPhase_exclude_filter m r G P hP]
    simp only [Option.map_some', Option.some.injEq]
    rw [groupPhase_exclude_filter m r G hG, ← hl, List.filter_append]

/-- C3 as amended: for a group name `G` not occurring in the include
sequence, adding `G` to the exclude set removes every specifier whose
assembled occurrences are all tagged with `G`, while a specifier with an
occurrence tagged otherwise, whose base name is not excluded, remains in
the resolved set. -/
theorem exclude_group_soundness_amended (m : Manifest) (r : Request)
    (G : String) (s : Specifier) (l : List (Origin × Specifier))
    (res : List Specifier)
    (hG : G ∉ r.includes)
    (hl : assembleTagged m r = some l)
    (hres : resolve m { r with excludes := G :: r.excludes } = some res) :
    ((∀ p ∈ l, p.2 = s → p.1 = Origin.group G) → s ∉ res) ∧
    ((∃ p ∈ l, p.2 = s ∧ p.1 ≠ Origin.group G) →
      (∃ b, baseNameLower s = some b ∧ b ∉ G :: r.excludes) → s ∈ res) := by
  have hA := assembleTagged_exclude_filter m r G hG l hl
  unfold resolve at hres
  rw [hA] at hres
  simp only [Option.some_bind] at hres
  unfold dedupExclude at hres
  obtain ⟨q, hq, rfl⟩ := Option.map_eq_some'.mp hres
  constructor
  · intro hall hsin
    obtain ⟨hs1, _, b, hb, hbe⟩ :=
      (mem_dedupAux (G :: r.excludes) _ [] q hq s).mp hsin
    obtain ⟨p, hp, rfl⟩ := List.mem_map.mp hs1
    have hpl := List.mem_filter.mp hp
    exact absurd (hall p hpl.1 rfl) (of_decide_eq_true hpl.2)
  · rintro ⟨p, hp, hps, hpG⟩ hbase
    refine (mem_dedupAux (G :: r.excludes) _ [] q hq s).mpr
      ⟨?_, List.not_mem_nil s, hbase⟩
    rw [← hps]
    exact List.mem_map_of_mem Prod.snd
      (List.mem_filter.mpr ⟨hp, decide_eq_true hpG⟩)

/-- Counterexample for C3 as stated: on a manifest whose `test` group is
the sole origin of `test1`, a request that both includes and excludes
`test` still resolves to `test1` — the include path never consults the
exclude set at group level, so a specifier contributed solely through an
excluded group survives. -/
theorem exclude_included_group_remains :
    assembleTagged soleGroupManifest includeExcludeRequest =
      some [(Origin.group "test", "test1")] ∧
    "test" ∈ includeExcludeRequest.excludes ∧
    resolve soleGroupManifest includeExcludeRequest = some ["test1"] := by
  decide

/-- Witness for the amended C3 at Scenario A: excluding `test` (which is
not included explicitly) removes `test1`, whose only assembled
occurrences are tagged with `test`. -/
theorem exclude_group_soundness_amended_witness :
    "test1" ∉ ["dep1", "dep2", "opt1", "opt2", "dev1", "dev2",
      "extra1", "extra2"] :=
  (exclude_group_soundness_amended scenarioAManifest scenarioARequest "test"
    "test1"
    [(Origin.base, "dep1"), (Origin.base, "dep2"),
     (Origin.group "default", "opt1"), (Origin.group "default", "opt2"),
     (Origin.group "test", "test1"), (Origin.group "test", "test2"),
     (Origin.group "dev", "dev1"), (Origin.group "dev", "dev2"),
     (Origin.group "extra", "extra1"), (Origin.group "extra", "extra2")]
    ["dep1", "dep2", "opt1", "opt2", "dev1", "dev2", "extra1", "extra2"]
    (by decide) (by decide) (by decide)).1 (by decide)

/-! ## C4: no duplicates, first occurrence wins -/

/-- A specifier survives the exclusion test: its base name exists and is
not excluded. -/
def survives (excludes : List String) (t : Specifier) : Bool :=
  match baseNameLower t with
  | some b => decide (b ∉ excludes)
  | none => false

/-- Keep the first occurrence of every string, in place: the
specification-side reading of the de-duplication rule. -/
def firstDedup : List Specifier → List Specifier
  | [] => []
  | t :: rest => t :: firstDedup (rest.filter fun u => decide (u ≠ t))
termination_by l => l.length
decreasing_by
  simp only [List.length_cons]
  exact Nat.lt_succ_of_le (List.length_filter_le _ rest)

/-- Elements of the first-occurrence dedup come from the input. -/
theorem mem_of_mem_firstDedup :
    ∀ (l : List Specifier) (s), s ∈ firstDedup l → s ∈ l := by
  intro l
  induction l using firstDedup.induct with
  | case1 =>
    intro s hs
    rw [firstDedup] at hs
    cases hs
  | case2 t rest ih =>
    intro s hs
    rw [firstDedup] at hs
    rcases List.mem_cons.mp hs with rfl | hs'
    · exact List.mem_cons_self s _
    · exact List.mem_cons_of_mem _ (List.mem_of_mem_filter (ih s hs'))

/-- The first-occurrence dedup has no duplicates. -/
theorem firstDedup_nodup : ∀ l : List Specifier, (firstDedup l).Nodup := by
  intro l
  induction l using firstDedup.induct with
  | case1 =>
    rw [firstDedup]
    exact List.nodup_nil
  | case2 t rest ih =>
    rw [firstDedup]
    refine List.nodup_cons.mpr ⟨?_, ih⟩
    intro hmem
    have h := List.mem_filter.mp (mem_of_mem_firstDedup _ t hmem)
    exact absurd rfl (of_decide_eq_true h.2)

/-- The loop of `main` computes exactly the first-occurrence dedup of
the specifiers that survive exclusion and are not already seen. -/
theorem dedupAux_eq_firstDedup (excludes : List String) :
    ∀ (ts : List Specifier) (seen : List String) (p),
      dedupAux excludes seen ts = some p →
      p.2 = firstDedup
        (ts.filter fun t => survives excludes t && decide (t ∉ seen)) := by
  intro ts
  induction ts with
  | nil =>
    intro seen p hp
    cases hp
    simp [firstDedup]
  | cons t rest ih =>
    intro seen p hp
    cases hb : baseNameLower t with
    | none => simp [dedupAux, hb] at hp
    | some b =>
      have hsurv : survives excludes t = decide (b ∉ excludes) := by
        simp [survives, hb]
      by_cases hc : b ∉ excludes ∧ t ∉ seen
      · simp only [dedupAux, hb, if_pos hc, Option.map_eq_some'] at hp
        obtain ⟨q, hq, rfl⟩ := hp
        have hFt : (survives excludes t && decide (t ∉ seen)) = true := by
          rw [hsurv]
          simp [hc.1, hc.2]
        simp only [List.filter_cons, hFt, if_true]
        rw [firstDedup]
        rw [ih (t :: seen) q hq]
        congr 1
        rw [List.filter_filter]
        congr 1
        refine List.filter_congr ?_
        intro u _
        by_cases hut : u = t
        · subst hut
          simp
        · by_cases hus : u ∈ seen
          · simp [hut, hus, List.mem_cons]
          · simp [hut, hus, List.mem_cons]
      · simp only [dedupAux, hb, if_neg hc] at hp
        have hFt : (survives excludes t && decide (t ∉ seen)) = false := by
          rw [hsurv]
          rcases not_and_or.mp hc with hx | hx
          · simp [not_not.mp hx]
          · simp [not_not.mp hx]
        simp only [List.filter_cons, hFt]
        exact ih seen p hp

/-- C4: when resolution succeeds, the resolved set has no repeated
specifier string, and it is exactly the first-occurrence dedup of the
surviving assembled specifiers — each kept specifier sits at the
position of its first surviving occurrence. -/
theorem resolve_nodup_first_occurrence (m : Manifest) (r : Request)
    (l : List (Origin × Specifier)) (res : List Specifier)
    (hl : assembleTagged m r = some l) (hres : resolve m r = some res) :
    res.Nodup ∧
    res = firstDedup ((l.map Prod.snd).filter (survives r.excludes)) := by
  unfold resolve at hres
  rw [hl] at hres
  simp only [Option.some_bind] at hres
  unfold dedupExclude at hres
  obtain ⟨q, hq, rfl⟩ := Option.map_eq_some'.mp hres
  have heq := dedupAux_eq_firstDedup r.excludes (l.map Prod.snd) [] q hq
  have heq2 : ((l.map Prod.snd).filter
      fun t => survives r.excludes t && decide (t ∉ ([] : List String))) =
      (l.map Prod.snd).filter (survives r.excludes) := by
    refine List.filter_congr ?_
    intro u _
    simp
  rw [heq2] at heq
  exact ⟨heq ▸ firstDedup_nodup _, heq⟩

/-- A manifest whose base list and default group overlap, to exercise
de-duplication. -/
def dupManifest : Manifest :=
  { name := "p"
    dependencies := ["dep1", "dep1"]
    optionalDependencies := [("default", ["dep1", "opt1"])] }

/-- Witness for C4 on a manifest with duplicated specifiers. -/
theorem resolve_nodup_first_occurrence_witness :
    (["dep1", "opt1"] : List Specifier).Nodup ∧
    (["dep1", "opt1"] : List Specifier) =
      firstDedup ((([((Origin.base : Origin), ("dep1" : Specifier)),
        (Origin.base, "dep1"), (Origin.group "default", "dep1"),
        (Origin.group "default", "opt1")]).map Prod.snd).filter
          (survives plainRequest.excludes)) :=
  resolve_nodup_first_occurrence dupManifest plainRequest
    [(Origin.base, "dep1"), (Origin.base, "dep1"),
     (Origin.group "default", "dep1"), (Origin.group "default", "opt1")]
    ["dep1", "opt1"] (by decide) (by decide)

end InstallDeps
